import Mathlib

/-!
Verification development for the opensrc-mcp server.

Each definition below is a shallow embedding of a function of the
repository (file and symbol named in its doc comment).  JavaScript
strings are modelled by Lean `String`/`List Char`, JS numbers that are
used as integers by `Nat`/`Int`, and cosine distances by `Rat`.
External effects (the filesystem, the embedding model, the quantized
vector scan of the SQLite extension, the tree-sitter parsers) enter the
embeddings as explicit parameters; all control flow and string
manipulation is translated from the source.
-/

namespace OpensrcMCP

/-! ## Embedder (src/vector/embeddings.ts) -/

/-- `MAX_CHARS` from src/vector/embeddings.ts. -/
def MAX_CHARS : Nat := 1800

/-- `QUERY_PREFIX` from src/vector/embeddings.ts
(`"Represent this code search query: "`). -/
def QUERY_PREFIX_STR : String := "Represent this code search query: "

/-- `text.slice(0, n)` on a JS string: its first `n` characters. -/
def jsSlice0 (s : String) (n : Nat) : String := String.mk (s.data.take n)

/-- `truncateForEmbedding` from src/vector/embeddings.ts: texts longer
than `MAX_CHARS` are cut and a marker is appended. -/
def truncateForEmbedding (text : String) : String :=
  if text.length ≤ MAX_CHARS then text
  else jsSlice0 text MAX_CHARS ++ "\n// ... truncated"

/-- The text that `embedQuery` (src/vector/embeddings.ts) hands to the
model: the query with the instruction head prepended.  The source does
`const text = QUERY_PREFIX + query` and embeds `text` directly, without
calling `truncateForEmbedding`. -/
def embedQueryText (query : String) : String :=
  QUERY_PREFIX_STR ++ query

/-- The texts that `embedChunks` (src/vector/embeddings.ts) hands to the
model: every chunk is first passed through `truncateForEmbedding`. -/
def embedChunksTexts (chunks : List String) : List String :=
  chunks.map truncateForEmbedding

/-- A query of 1801 characters, used to exhibit the missing truncation. -/
def longQuery : String := String.mk (List.replicate 1801 'a')

/-! ## Result truncator (src/truncate.ts) -/

/-- `MAX_TOKENS` from src/truncate.ts. -/
def MAX_TOKENS : Nat := 8000

/-- `CHARS_PER_TOKEN` from src/truncate.ts. -/
def CHARS_PER_TOKEN : Nat := 4

/-- A JSON value, the model of the non-string script results that
`truncate` serializes with `JSON.stringify(content, null, 2)`.
Numbers are restricted to integers. -/
inductive JsonVal where
  | null : JsonVal
  | bool (b : Bool) : JsonVal
  | num (n : Int) : JsonVal
  | str (s : String) : JsonVal
  | arr (items : List JsonVal) : JsonVal
  | obj (fields : List (String × JsonVal)) : JsonVal
deriving Repr

/-- JSON string escaping as done by `JSON.stringify` (the escapes that
matter for the characters we model). -/
def jsonEscapeChar (c : Char) : String :=
  if c = '"' then "\\\""
  else if c = '\\' then "\\\\"
  else if c = '\n' then "\\n"
  else if c = '\t' then "\\t"
  else if c = '\r' then "\\r"
  else String.mk [c]

/-- Quote a string as a JSON string literal. -/
def jsonQuote (s : String) : String :=
  "\"" ++ String.join (s.data.map jsonEscapeChar) ++ "\""

/-- The indentation that `JSON.stringify(v, null, 2)` puts at depth `d`. -/
def jsonIndent (d : Nat) : String := String.mk (List.replicate (2 * d) ' ')

mutual

/-- `JSON.stringify(v, null, 2)` at nesting depth `d`:
two-space indentation, items one per line, `": "` after object keys,
`[]`/`\x7b\x7d` for empty containers. -/
def jsonStringifyAt (d : Nat) : JsonVal → String
  | .null => "null"
  | .bool b => if b then "true" else "false"
  | .num n => toString n
  | .str s => jsonQuote s
  | .arr items =>
      match items with
      | [] => "[]"
      | _ => "[\n" ++ String.intercalate ",\n"
               (jsonStringifyItems (d + 1) items) ++ "\n" ++ jsonIndent d ++ "]"
  | .obj fields =>
      match fields with
      | [] => "\x7b\x7d"
      | _ => "\x7b\n" ++ String.intercalate ",\n"
               (jsonStringifyFields (d + 1) fields) ++ "\n" ++ jsonIndent d ++ "\x7d"

/-- The serialized array items at depth `d`, each on its own indented line. -/
def jsonStringifyItems (d : Nat) : List JsonVal → List String
  | [] => []
  | v :: rest => (jsonIndent d ++ jsonStringifyAt d v) :: jsonStringifyItems d rest

/-- The serialized object fields at depth `d`, `"key": value`, each on its
own indented line. -/
def jsonStringifyFields (d : Nat) : List (String × JsonVal) → List String
  | [] => []
  | (k, v) :: rest =>
      (jsonIndent d ++ jsonQuote k ++ ": " ++ jsonStringifyAt d v) ::
        jsonStringifyFields d rest

end

/-- `JSON.stringify(v, null, 2)` as used in src/truncate.ts. -/
def jsonStringify2 (v : JsonVal) : String := jsonStringifyAt 0 v

/-- `Number.prototype.toLocaleString()` for a natural number in the
default en-US style: decimal digits grouped in threes by commas. -/
def toLocaleStringNat (n : Nat) : String :=
  String.mk (localeGroup (toString n).data.reverse).reverse
where
  localeGroup : List Char → List Char
    | c1 :: c2 :: c3 :: c4 :: rest =>
        c1 :: c2 :: c3 :: ',' :: localeGroup (c4 :: rest)
    | cs => cs

/-- The value a script returned: either a string, or any other value
(modelled as the JSON value it serializes to). -/
inductive JsContent where
  | str (s : String) : JsContent
  | other (v : JsonVal) : JsContent

/-- The `text` local of `truncate` (src/truncate.ts): strings pass
through, anything else is `JSON.stringify(content, null, 2)`. -/
def contentText : JsContent → String
  | .str s => s
  | .other v => jsonStringify2 v

/-- The fixed guidance footer appended by `truncate` when it cuts,
parametrized by the length of the full text (src/truncate.ts). -/
def truncFooter (len : Nat) : String :=
  "\n\n--- TRUNCATED ---\nResponse was ~" ++
    toLocaleStringNat ((len + CHARS_PER_TOKEN - 1) / CHARS_PER_TOKEN) ++
    " tokens (limit: " ++ toLocaleStringNat MAX_TOKENS ++
    ").\nUse opensrc.files() to find specific files, then opensrc.read() for targeted content."

/-- `truncate` from src/truncate.ts. -/
def truncate (content : JsContent) : String :=
  if (contentText content).length ≤ MAX_TOKENS * CHARS_PER_TOKEN then
    contentText content
  else
    jsSlice0 (contentText content) (MAX_TOKENS * CHARS_PER_TOKEN) ++
      truncFooter (contentText content).length

/-! ## Sources and fetch (src/api/opensrc.ts) -/

/-- `Source` from src/types.ts. -/
structure Source where
  type : String
  name : String
  version : Option String
  ref : Option String
  path : String
  fetchedAt : String
  repository : String
deriving Repr, DecidableEq

/-- `OpensrcFetchResult` from src/api/opensrc.ts: one record per spec as
returned by the external `fetchCommand`. -/
structure OpensrcFetchResult where
  package : String
  version : String
  path : String
  success : Bool
  error : Option String
deriving Repr, DecidableEq

/-- `FetchedSource` from src/types.ts. -/
structure FetchedSource where
  source : Source
  alreadyExists : Bool
deriving Repr, DecidableEq

/-- The source lookup of `fetch` (src/api/opensrc.ts line 442):
`newSources.find(s => s.name === r.package || s.path.includes(r.package))`. -/
def findFetchedSource (newSources : List Source) (pkg : String) : Option Source :=
  newSources.find? fun s => s.name == pkg || decide (pkg.data <:+: s.path.data)

/-- The result-building loop of `fetch` (src/api/opensrc.ts lines
437-456): walks the fetcher records in order; **throws** on the first
record with `success = false` (and when the source cannot be found
afterwards), otherwise pushes `{source, alreadyExists: false}`. -/
def fetchModel (newSources : List Source) :
    List OpensrcFetchResult → Except String (List FetchedSource)
  | [] => .ok []
  | r :: rest =>
      if r.success = false then
        .error ("Failed to fetch " ++ r.package ++ ": " ++ r.error.getD "Unknown error")
      else
        match findFetchedSource newSources r.package with
        | none => .error ("Source not found after fetch: " ++ r.package)
        | some s =>
            match fetchModel newSources rest with
            | .error e => .error e
            | .ok l => .ok ({ source := s, alreadyExists := false } :: l)

/-- A concrete source already present in the registry. -/
def zodSource : Source :=
  { type := "npm", name := "zod", version := some "3.22.0", ref := none,
    path := "packages/npm/zod", fetchedAt := "2026-01-01T00:00:00Z",
    repository := "https://github.com/colinhacks/zod" }

/-- A successful fetcher record for the already-present source. -/
def zodOkRecord : OpensrcFetchResult :=
  { package := "zod", version := "3.22.0", path := "packages/npm/zod",
    success := true, error := none }

/-- A failed fetcher record. -/
def nopeFailRecord : OpensrcFetchResult :=
  { package := "nope", version := "", path := "", success := false,
    error := none }

/-! ## Semantic search dispatch (src/vector/index.ts, `search`) -/

/-- The state `search` consults: module readiness, whether the `chunks`
table has any row, the `indexingInProgress` set, and the
`indexed_sources` table. -/
structure SearchState where
  ready : Bool
  hasData : Bool
  indexing : List String
  indexedSources : List String
deriving Repr, DecidableEq

/-- What `search` does before any embedding: an early `{error, sources}`
return, or proceeding to embed the query and scan. -/
inductive SearchOutcome where
  | err (kind : String) (sources : List String) : SearchOutcome
  | proceed (sources : Option (List String)) (topK : Nat) : SearchOutcome
deriving Repr, DecidableEq

/-- The dispatch of `search` (src/vector/index.ts lines 294-344):
not-ready and empty-store early returns first, then the per-request
`indexing` / `not_indexed` checks, then the query is embedded. -/
def searchModel (st : SearchState) (optSources : Option (List String))
    (topK : Nat := 20) : SearchOutcome :=
  if !st.ready then .err "not_indexed" (optSources.getD [])
  else if !st.hasData then
    if st.indexing.length > 0 then .err "indexing" st.indexing
    else .err "not_indexed" (optSources.getD [])
  else
    match optSources with
    | some ss =>
        if ss.length > 0 then
          let ind := ss.filter (fun s => decide (s ∈ st.indexing))
          if ind.length > 0 then .err "indexing" ind
          else
            let notIndexed := ss.filter (fun s => decide (s ∉ st.indexedSources))
            if notIndexed.length > 0 then .err "not_indexed" notIndexed
            else .proceed (some ss) topK
        else .proceed (some ss) topK
    | none => .proceed none topK

/-- An empty store in which source "B" is indexing and nothing is indexed. -/
def emptyStoreStateB : SearchState :=
  { ready := true, hasData := false, indexing := ["B"], indexedSources := [] }

/-! ## Chunk data model (src/vector/types.ts) -/

/-- `CodeChunk` from src/vector/types.ts; `kind` is kept as the literal
string of the `ChunkKind` union. -/
structure CodeChunk where
  file : String
  identifier : String
  kind : String
  startLine : Nat
  endLine : Nat
  content : String
  parent : Option String := none
deriving Repr, DecidableEq

/-! ## Index engine (src/vector/index.ts) -/

/-- The database state the index engine mutates: the `chunks` rows
(tagged by source, in insertion order) and the `indexed_sources` table. -/
structure DBState where
  rows : List (String × CodeChunk)
  indexedSources : List String
deriving Repr, DecidableEq

/-- `isIndexed` from src/vector/db.ts: membership in `indexed_sources`. -/
def isIndexedModel (db : DBState) (source : String) : Bool :=
  decide (source ∈ db.indexedSources)

/-- `markIndexed` from src/vector/db.ts: `INSERT OR REPLACE` into
`indexed_sources` keyed by name. -/
def markIndexedModel (db : DBState) (source : String) : DBState :=
  if source ∈ db.indexedSources then db
  else { db with indexedSources := db.indexedSources ++ [source] }

/-- `insertChunks` from src/vector/db.ts: one transaction appending the
batch rows for `source` in order. -/
def insertChunksModel (db : DBState) (source : String)
    (batch : List CodeChunk) : DBState :=
  { db with rows := db.rows ++ batch.map (fun c => (source, c)) }

/-- How one batch can go inside `processBatch` (src/vector/index.ts lines
269-289): the embedder call fails, the insert transaction fails, or both
succeed. -/
inductive BatchOutcome where
  | ok : BatchOutcome
  | embedFail : BatchOutcome
  | insertFail : BatchOutcome
deriving Repr, DecidableEq

/-- `processBatch` (src/vector/index.ts lines 269-289): embed then insert;
`none` models the `-1` error return (the failed insert transaction is
atomic, so the rows are unchanged on either failure). -/
def processBatchModel (db : DBState) (source : String) (batch : List CodeChunk) :
    BatchOutcome → DBState × Option Nat
  | .embedFail => (db, none)
  | .insertFail => (db, none)
  | .ok => (insertChunksModel db source batch, some batch.length)

/-- The batch loop of `indexSourceInternal` (src/vector/index.ts lines
227-246): run `processBatch` over the batched chunk stream, stopping at
the first `-1`; returns the database, the chunk total, and whether a
batch failed. -/
def runBatches (source : String) :
    DBState → Nat → List (List CodeChunk × BatchOutcome) → DBState × Nat × Bool
  | db, total, [] => (db, total, false)
  | db, total, (batch, outcome) :: rest =>
      match processBatchModel db source batch outcome with
      | (db2, some n) => runBatches source db2 (total + n) rest
      | (db2, none) => (db2, total, true)

/-- `indexSourceInternal` (src/vector/index.ts lines 195-263) over an
already-batched chunk stream: the `isIndexed` / `indexingInProgress`
early returns, the batch loop, the single `finalize` when any chunk was
inserted, `markIndexed` on success, and the `finally` that removes the
source from the indexing set.  On any failure the function returns early:
no `deleteSource` call occurs anywhere in it.  Returns the database and
the indexing set. -/
def indexSourceInternalModel (db : DBState) (indexing : List String)
    (source : String) (batches : List (List CodeChunk × BatchOutcome))
    (finalizeOk : Bool) : DBState × List String :=
  if isIndexedModel db source then (db, indexing)
  else if source ∈ indexing then (db, indexing)
  else
    let r := runBatches source db 0 batches
    let db2 :=
      if r.2.2 then r.1
      else if r.2.1 > 0 then
        if finalizeOk then markIndexedModel r.1 source else r.1
      else markIndexedModel r.1 source
    (db2, (indexing ++ [source]).filter (fun s => s ≠ source))

/-- `queueIndex` (src/vector/index.ts lines 152-173): skip when already
indexed, already indexing, or already queued; otherwise append to the
queue. -/
def queueIndexModel (db : DBState) (indexing : List String)
    (queue : List String) (source : String) : List String :=
  if isIndexedModel db source || decide (source ∈ indexing) || decide (source ∈ queue)
  then queue
  else queue ++ [source]

/-- The chunks inserted before the first failing batch (everything, when
no batch fails). -/
def successfulPrefixChunks : List (List CodeChunk × BatchOutcome) → List CodeChunk
  | [] => []
  | (batch, .ok) :: rest => batch ++ successfulPrefixChunks rest
  | (_, _) :: _ => []

/-- Whether some batch fails. -/
def hasBatchFailure : List (List CodeChunk × BatchOutcome) → Bool
  | [] => false
  | (_, .ok) :: rest => hasBatchFailure rest
  | (_, _) :: _ => true

/-- Two tiny chunks for the concrete failure scenario. -/
def chunkA : CodeChunk :=
  { file := "a.ts", identifier := "f", kind := "function",
    startLine := 1, endLine := 3, content := "function f() \x7b\x7d" }

/-- Second tiny chunk. -/
def chunkB : CodeChunk :=
  { file := "b.ts", identifier := "g", kind := "function",
    startLine := 1, endLine := 2, content := "function g() \x7b\x7d" }

/-! ## Vector scan (src/vector/db.ts, `searchChunks`) -/

/-- A `chunks` row joined with its id, as seen by `searchChunks`. -/
structure ChunkRow where
  id : Nat
  source : String
  file : String
  identifier : String
  kind : String
  startLine : Nat
  endLine : Nat
  content : String
deriving Repr, DecidableEq

/-- A candidate returned by `vector_quantize_scan`: a row and its cosine
distance to the query vector. -/
structure Cand where
  row : ChunkRow
  distance : Rat
deriving Repr, DecidableEq

/-- `SearchResult` from src/vector/types.ts. -/
structure SearchResult where
  source : String
  file : String
  identifier : String
  kind : String
  startLine : Nat
  endLine : Nat
  content : String
  score : Rat
deriving Repr, DecidableEq

/-- The row-to-result map of `searchChunks` (src/vector/db.ts lines
295-304): copy the columns and set `score = 1 - distance`. -/
def toSearchResult (c : Cand) : SearchResult :=
  { source := c.row.source, file := c.row.file, identifier := c.row.identifier,
    kind := c.row.kind, startLine := c.row.startLine, endLine := c.row.endLine,
    content := c.row.content, score := 1 - c.distance }

/-- The `ORDER BY v.distance ASC` comparison. -/
def candLE (a b : Cand) : Bool := a.distance ≤ b.distance

/-- `searchChunks` (src/vector/db.ts lines 243-308).  The quantized scan
is the oracle `scan : Nat → List Cand` mapping a candidate budget to the
candidates it returns.  With a non-empty source filter the SQL asks the
scan for `topK * 2` candidates, joins, filters by source, orders by
ascending distance and keeps `LIMIT topK`; without a filter it asks for
exactly `topK` and only orders. -/
def searchChunksModel (scan : Nat → List Cand) (sources : List String)
    (topK : Nat) : List SearchResult :=
  if sources.length > 0 then
    (((((scan (topK * 2)).filter
        (fun c => decide (c.row.source ∈ sources))).mergeSort candLE).take topK).map
      toSearchResult)
  else
    (((scan topK).mergeSort candLE).map toSearchResult)

/-! ## Chunkers (src/vector/chunker) -/

/-- The whitespace class of JavaScript (`String.prototype.trim`, regex
`\s`) for the characters this development uses. -/
def isJsWS (c : Char) : Bool :=
  c = ' ' || c = '\t' || c = '\n' || c = '\r' || c = '\x0b' || c = '\x0c'

/-- `String.prototype.trim`. -/
def jsTrim (s : String) : String :=
  String.mk ((((s.data.dropWhile isJsWS).reverse).dropWhile isJsWS).reverse)

/-- Split a character list on newline, `cur` being the current piece
reversed. -/
def splitNLAux : List Char → List Char → List String
  | [], cur => [String.mk cur.reverse]
  | c :: rest, cur =>
      if c = '\n' then String.mk cur.reverse :: splitNLAux rest []
      else splitNLAux rest (c :: cur)

/-- `content.split("\n")`. -/
def splitNL (s : String) : List String := splitNLAux s.data []

/-- `lines.join("\n")`. -/
def joinNL (lines : List String) : String := String.intercalate "\n" lines

/-- The slice of a file over the 1-based inclusive line range `[a, b]`
(the spec's notion of the file's slice, used to compare with emitted
chunk contents). -/
def fileSlice (content : String) (a b : Nat) : String :=
  joinNL (((splitNL content).drop (a - 1)).take (b - a + 1))

/-- `WINDOW_SIZE` from src/vector/chunker/fallback.ts. -/
def WINDOW_SIZE : Nat := 50

/-- `OVERLAP` from src/vector/chunker/fallback.ts. -/
def OVERLAP : Nat := 15

/-- The loop of `fallbackChunk` (src/vector/chunker/fallback.ts lines
13-30): windows of 50 lines starting every 35 lines; the joined window is
trimmed, empty windows are skipped, and the loop breaks once a window
reaches the end of the file. -/
def fallbackGo (file : String) (lines : List String) (i : Nat) : List CodeChunk :=
  if _h : i < lines.length then
    if jsTrim (joinNL ((lines.drop i).take (min (i + WINDOW_SIZE) lines.length - i))) = ""
    then fallbackGo file lines (i + (WINDOW_SIZE - OVERLAP))
    else
      { file := file,
        identifier := "lines_" ++ toString (i + 1) ++ "_" ++
          toString (min (i + WINDOW_SIZE) lines.length),
        kind := "unknown", startLine := i + 1,
        endLine := min (i + WINDOW_SIZE) lines.length,
        content := jsTrim (joinNL ((lines.drop i).take
          (min (i + WINDOW_SIZE) lines.length - i))) } ::
        (if min (i + WINDOW_SIZE) lines.length ≥ lines.length then []
         else fallbackGo file lines (i + (WINDOW_SIZE - OVERLAP)))
  else []
termination_by lines.length - i
decreasing_by all_goals simp only [WINDOW_SIZE, OVERLAP] at *; omega

/-- `fallbackChunk` from src/vector/chunker/fallback.ts. -/
def fallbackChunk (file content : String) : List CodeChunk :=
  fallbackGo file (splitNL content) 0

/-- `MdSection` from src/vector/chunker/markdown.ts. -/
structure MdSection where
  heading : String
  level : Nat
  startLine : Nat
  endLine : Nat
  content : String
deriving Repr, DecidableEq

/-- The heading regex `^(#\x7b1,6\x7d)\s+(.+)$` of
src/vector/chunker/markdown.ts: one to six `#`, at least one whitespace
character, then a non-empty remainder; returns the level and the raw
remainder (group 2). -/
def parseHeading (line : String) : Option (Nat × String) :=
  let cs := line.data
  let hashes := cs.takeWhile (fun c => c = '#')
  let n := hashes.length
  if 1 ≤ n ∧ n ≤ 6 then
    let rest := cs.drop n
    let ws := rest.takeWhile isJsWS
    if 1 ≤ ws.length ∧ rest.drop ws.length ≠ [] then
      some (n, String.mk (rest.drop ws.length))
    else none
  else none

/-- The section a heading match opens (`currentSection` assignment,
src/vector/chunker/markdown.ts lines 69-75): `match[2].trim()` as the
heading, `startLine = i + 1`. -/
def openSection (i lvl : Nat) (htext : String) : MdSection :=
  { heading := jsTrim htext, level := lvl, startLine := i + 1,
    endLine := 0, content := "" }

/-- Closing the current section at loop index `i` (lines 49-55 and the
post-loop flush of src/vector/chunker/markdown.ts): `endLine = i`,
content is the accumulated lines joined and trimmed; empty sections are
dropped. -/
def closeSection (s : MdSection) (secLines : List String) (i : Nat) :
    List MdSection :=
  if jsTrim (joinNL secLines) ≠ "" then
    [{ s with endLine := i, content := jsTrim (joinNL secLines) }]
  else []

/-- The preamble section flushed before the first heading (lines 56-67
and the no-heading fallback of src/vector/chunker/markdown.ts). -/
def preambleSection (secLines : List String) (i : Nat) : List MdSection :=
  if secLines.length > 0 then
    if jsTrim (joinNL secLines) ≠ "" then
      [{ heading := "", level := 0, startLine := 1, endLine := i,
         content := jsTrim (joinNL secLines) }]
    else []
  else []

/-- The flush performed when a heading is met: close the open section or
emit the preamble (src/vector/chunker/markdown.ts lines 48-67). -/
def flushSection (cur : Option MdSection) (secLines : List String) (i : Nat) :
    List MdSection :=
  match cur with
  | some s => closeSection s secLines i
  | none => preambleSection secLines i

/-- The `for` loop of `extractSections` (src/vector/chunker/markdown.ts
lines 43-85) plus the post-loop flush (lines 87-104): `i` is the 0-based
index of the head of `rest`, `cur` is `currentSection`, `secLines` is
`sectionLines`. -/
def sectionsGo : List String → Nat → Option MdSection → List String → List MdSection
  | [], i, some s, secLines => closeSection s secLines i
  | [], i, none, secLines => preambleSection secLines i
  | line :: rest, i, cur, secLines =>
      match parseHeading line with
      | some (lvl, htext) =>
          flushSection cur secLines i ++
            sectionsGo rest (i + 1) (some (openSection i lvl htext)) [line]
      | none => sectionsGo rest (i + 1) cur (secLines ++ [line])

/-- `extractSections` from src/vector/chunker/markdown.ts. -/
def extractSections (lines : List String) : List MdSection :=
  sectionsGo lines 0 none []

/-- The word-character class of the fence regex (`\w`). -/
def isWordChar (c : Char) : Bool :=
  (('a' ≤ c && c ≤ 'z') || ('A' ≤ c && c ≤ 'Z') || ('0' ≤ c && c ≤ '9') || c = '_')

/-- The fence regex `^` followed by three backticks and `(\w*)$`
(src/vector/chunker/markdown.ts): returns the language capture when the
line opens a fence. -/
def fenceLang (line : String) : Option String :=
  let cs := line.data
  if cs.take 3 = ['`', '`', '`'] ∧ (cs.drop 3).all isWordChar then
    some (String.mk (cs.drop 3))
  else none

/-- `line.startsWith("\x60\x60\x60")`, the closing-fence test. -/
def isFenceClose (line : String) : Bool :=
  ['`', '`', '`'].isPrefixOf line.data

/-- The loop of `extractCodeBlocks` (src/vector/chunker/markdown.ts lines
109-151): outside a block a fence line opens one (empty language becomes
`"code"`); inside a block any line starting with three backticks closes
it, emitting a `codeblock` chunk when the trimmed body is longer than 20
characters; other lines accumulate. -/
def codeBlocksGo (file : String) :
    List String → Nat → Bool → String → Nat → List String → List CodeChunk
  | [], _, _, _, _, _ => []
  | line :: rest, i, inBlock, blockLang, blockStart, blockLines =>
      if (fenceLang line).isSome ∧ inBlock = false then
        codeBlocksGo file rest (i + 1) true
          (if (fenceLang line).getD "" = "" then "code" else (fenceLang line).getD "")
          i []
      else if isFenceClose line ∧ inBlock then
        (if jsTrim (joinNL blockLines) ≠ "" ∧
            (jsTrim (joinNL blockLines)).length > 20 then
          [{ file := file,
             identifier := "codeblock_" ++ blockLang ++ "_L" ++ toString (blockStart + 1),
             kind := "codeblock", startLine := blockStart + 1, endLine := i + 1,
             content := "```" ++ blockLang ++ "\n" ++ jsTrim (joinNL blockLines) ++ "\n```" }]
         else []) ++ codeBlocksGo file rest (i + 1) false blockLang blockStart []
      else if inBlock then
        codeBlocksGo file rest (i + 1) inBlock blockLang blockStart (blockLines ++ [line])
      else
        codeBlocksGo file rest (i + 1) inBlock blockLang blockStart blockLines

/-- `extractCodeBlocks` from src/vector/chunker/markdown.ts. -/
def extractCodeBlocks (lines : List String) (file : String) : List CodeChunk :=
  codeBlocksGo file lines 0 false "" 0 []

/-- `chunkMarkdown` from src/vector/chunker/markdown.ts: one `section`
chunk per extracted section (`heading || "preamble"` as identifier), then
the `codeblock` chunks. -/
def chunkMarkdown (file content : String) : List CodeChunk :=
  let lines := splitNL content
  (extractSections lines).map (fun s =>
    { file := file,
      identifier := if s.heading ≠ "" then s.heading else "preamble",
      kind := "section", startLine := s.startLine, endLine := s.endLine,
      content := s.content }) ++
  extractCodeBlocks lines file

/-! ## Path resolution and the read guard (src/api/opensrc.ts, `read`) -/

/-- A path segment (a JS string without the separator). -/
abbrev Seg := List Char

/-- The path separator. -/
def sepChar : Char := '/'

/-- Split a character list on `/` (the segmentation step of
`path.resolve`'s normalization); `cur` is the segment being read,
reversed. -/
def splitAux : List Char → List Char → List Seg
  | [], cur => [cur.reverse]
  | c :: rest, cur =>
      if c = sepChar then cur.reverse :: splitAux rest []
      else splitAux rest (c :: cur)

/-- The segments of a path string. -/
def splitSegs (cs : List Char) : List Seg := splitAux cs []

/-- One normalization step of `path.resolve`: empty and `.` segments are
dropped, `..` pops the last segment (clamped at the root), anything else
is pushed. -/
def normStep (stack : List Seg) (seg : Seg) : List Seg :=
  if seg = [] ∨ seg = ['.'] then stack
  else if seg = ['.', '.'] then stack.dropLast
  else stack ++ [seg]

/-- `path.resolve(root, p)` on segment lists, for an absolute normalized
`root`: an absolute `p` is normalized from the filesystem root, a
relative `p` is normalized starting from the root's segments. -/
def resolveSegs (rootSegs : List Seg) (p : List Char) : List Seg :=
  if p.head? = some sepChar then (splitSegs p).foldl normStep []
  else (splitSegs p).foldl normStep rootSegs

/-- Join segments with `/` between them. -/
def joinTail : List Seg → List Char
  | [] => []
  | s :: rest => sepChar :: (s ++ joinTail rest)

/-- The characters of the absolute path with the given segments. -/
def joinSegs : List Seg → List Char
  | [] => []
  | s :: rest => s ++ joinTail rest

/-- Render segments as an absolute path string (as `path.resolve`
returns it). -/
def renderSegs (segs : List Seg) : List Char := sepChar :: joinSegs segs

/-- A usable segment list: what `path.resolve` produces (no empty
segment, no separator inside a segment). -/
def CleanSegs (segs : List Seg) : Prop :=
  ∀ s ∈ segs, s ≠ [] ∧ sepChar ∉ s

/-- The guard of `read` (src/api/opensrc.ts lines 244-247):
`fullPath.startsWith(sourcePath + "/") || fullPath === sourcePath`. -/
def readGuard (sourcePath fullPath : List Char) : Bool :=
  (sourcePath ++ [sepChar]).isPrefixOf fullPath || fullPath == sourcePath

/-- `read` (src/api/opensrc.ts lines 234-250) after the source lookup:
resolve the user path against the source root, reject with the path
traversal error unless the guard passes, otherwise read the resolved
file (modelled by returning the path that would be read). -/
def readModel (rootSegs : List Seg) (p : List Char) :
    Except (List Char) (List Char) :=
  let sourcePath := renderSegs rootSegs
  let fullPath := renderSegs (resolveSegs rootSegs p)
  if readGuard sourcePath fullPath then .ok fullPath
  else .error ("Path traversal not allowed: ".data ++ p)

/-- The segments of the source root `/foo`. -/
def fooRoot : List Seg := [['f', 'o', 'o']]

/-! ## astGrep (src/api/opensrc.ts, `astGrep`) -/

/-- `Lang` values of `@ast-grep/napi` that `EXT_LANG` maps to. -/
inductive AstLang where
  | javascript : AstLang
  | typescript : AstLang
  | tsx : AstLang
  | html : AstLang
  | css : AstLang
deriving Repr, DecidableEq

/-- `EXT_LANG` from src/api/opensrc.ts lines 21-30 (any other extension
is absent from the record, i.e. `undefined`). -/
def EXT_LANG : String → Option AstLang
  | ".js" => some .javascript
  | ".mjs" => some .javascript
  | ".cjs" => some .javascript
  | ".jsx" => some .javascript
  | ".ts" => some .typescript
  | ".tsx" => some .tsx
  | ".html" => some .html
  | ".css" => some .css
  | _ => none

/-- The basename of a path (the part after the last `/`). -/
def afterLastSep (cs : List Char) : List Char :=
  cs.foldl (fun acc c => if c = sepChar then [] else acc ++ [c]) []

/-- `path.extname`: the suffix of the basename from its last `.`, empty
when there is no dot or the only dot starts the basename (dotfiles). -/
def extTail (base : List Char) : List Char :=
  if base.contains '.' then
    let lastDot := base.length - 1 - (base.reverse.indexOf '.')
    if lastDot > 0 then base.drop lastDot else []
  else []

/-- `extname(filePath)` from `node:path` as used by `astGrep`. -/
def extname (p : String) : String :=
  String.mk (extTail (afterLastSep p.data))

/-- The per-file language selection of `astGrep` (src/api/opensrc.ts
lines 343-352): look the extension up in `EXT_LANG`; skip when `lang`
options are given and non-empty but do not contain the file's language;
skip when the extension has no language. -/
def astGrepFileLang (langs : Option (List AstLang)) (file : String) :
    Option AstLang :=
  match EXT_LANG (extname file) with
  | none => none
  | some l =>
      match langs with
      | some ls => if ls.length > 0 ∧ l ∉ ls then none else some l
      | none => some l

/-- The file loop of `astGrep` (src/api/opensrc.ts lines 340-384): stop
at `limit` matches; skip files whose extension selects no language, files
failing the path-traversal guard, and files whose read or parse throws
(`parse file lang = none`); otherwise append the parser's matches for the
file up to the limit.  The parser and the glob result are oracles. -/
def astGrepGo (rootSegs : List Seg) (langs : Option (List AstLang))
    (limit : Nat) (parse : String → AstLang → Option (List Nat)) :
    List String → List (String × Nat) → List (String × Nat)
  | [], acc => acc
  | f :: rest, acc =>
      if acc.length ≥ limit then acc
      else
        match astGrepFileLang langs f with
        | none => astGrepGo rootSegs langs limit parse rest acc
        | some l =>
            if readGuard (renderSegs rootSegs) (renderSegs (resolveSegs rootSegs f.data))
            then
              match parse f l with
              | none => astGrepGo rootSegs langs limit parse rest acc
              | some ms =>
                  astGrepGo rootSegs langs limit parse rest
                    (acc ++ (ms.map (fun m => (f, m))).take (limit - acc.length))
            else astGrepGo rootSegs langs limit parse rest acc

/-- `astGrep` over the glob-produced file list; each match is the file it
came from together with the parser's (opaque) match payload. -/
def astGrepModel (rootSegs : List Seg) (files : List String)
    (langs : Option (List AstLang)) (limit : Nat)
    (parse : String → AstLang → Option (List Nat)) : List (String × Nat) :=
  astGrepGo rootSegs langs limit parse files []

/-! ## Concrete instances used by the theorems below -/

/-- The record `fetch` builds for the already-present `zod` source. -/
def zodFetchedRecord : FetchedSource :=
  { source := zodSource, alreadyExists := false }

/-- A state with data in the store, source "C" indexing and source "A"
indexed. -/
def checksState : SearchState :=
  { ready := true, hasData := true, indexing := ["C"], indexedSources := ["A"] }

/-- A candidate row for the scan oracle. -/
def candS : Cand :=
  { row := { id := 1, source := "s", file := "f.ts", identifier := "f",
             kind := "function", startLine := 1, endLine := 2,
             content := "function f() \x7b\x7d" },
    distance := 1 / 4 }

/-! ## Theorems -/

/-- C8 counterexample: for the 1801-character query the text `embedQuery`
passes to the model is longer than `MAX_CHARS` and is **not** the
truncated text with the marker appended — `embedQuery` never calls
`truncateForEmbedding`. -/
theorem embedQuery_missing_truncation_cex :
    MAX_CHARS < (embedQueryText longQuery).length ∧
    embedQueryText longQuery ≠
      jsSlice0 (embedQueryText longQuery) MAX_CHARS ++ "\n// ... truncated" := by
  have hq : QUERY_PREFIX_STR.length = 34 := by decide
  have hl : longQuery.length = 1801 := by
    show (String.mk (List.replicate 1801 'a')).length = 1801
    rw [String.length_mk, List.length_replicate]
  have hlen : (embedQueryText longQuery).length = 1835 := by
    rw [embedQueryText, String.length_append, hq, hl]
  constructor
  · rw [hlen]
    norm_num [MAX_CHARS]
  · intro h
    have h2 := congrArg String.length h
    rw [String.length_append, hlen] at h2
    have hslice : (jsSlice0 (embedQueryText longQuery) MAX_CHARS).length = 1800 := by
      rw [jsSlice0, String.length_mk, List.length_take]
      have hd : (embedQueryText longQuery).data.length = 1835 := hlen
      rw [hd]
      norm_num [MAX_CHARS]
    have hmark : ("\n// ... truncated" : String).length = 17 := by decide
    rw [hslice, hmark] at h2
    omega

/-- C8 (amended): `embedQuery` prepends the fixed retrieval-instruction
text and embeds the result without any truncation; the `MAX_CHARS` cut
with the `"// ... truncated"` marker is applied to chunk texts (via
`truncateForEmbedding` inside `embedChunks`), not to queries. -/
theorem embedQuery_prepends_only_chunks_truncated (q t : String) :
    embedQueryText q = QUERY_PREFIX_STR ++ q ∧
    embedChunksTexts [t] = [truncateForEmbedding t] ∧
    (MAX_CHARS < t.length →
      truncateForEmbedding t = jsSlice0 t MAX_CHARS ++ "\n// ... truncated") ∧
    (t.length ≤ MAX_CHARS → truncateForEmbedding t = t) := by
  refine ⟨rfl, rfl, fun h => ?_, fun h => ?_⟩
  · rw [truncateForEmbedding, if_neg (by omega)]
  · rw [truncateForEmbedding, if_pos h]

/-- Witness for the amended C8 theorem at concrete inputs. -/
theorem embedQuery_prepends_only_chunks_truncated_witness :
    "hi".length ≤ MAX_CHARS ∧ truncateForEmbedding "hi" = "hi" :=
  ⟨by decide, (embedQuery_prepends_only_chunks_truncated "q" "hi").2.2.2 (by decide)⟩

/-- C10: the truncator serializes non-string results with
`JSON.stringify(·, null, 2)` (two-space indentation, as the concrete
object shows) and applies the 32000-character limit to that serialized
text — a non-string result behaves exactly like its serialization —
returning it unmodified when within the limit; strings are measured and
cut directly. -/
theorem truncate_serializes_then_limits (v : JsonVal) (s : String) :
    truncate (.other v) = truncate (.str (jsonStringify2 v)) ∧
    ((jsonStringify2 v).length ≤ 32000 → truncate (.other v) = jsonStringify2 v) ∧
    (s.length ≤ 32000 → truncate (.str s) = s) ∧
    (32000 < s.length →
      truncate (.str s) = jsSlice0 s 32000 ++ truncFooter s.length) ∧
    jsonStringify2 (.obj [("a", .num 1)]) = "\x7b\n  \"a\": 1\n\x7d" := by
  have hm : MAX_TOKENS * CHARS_PER_TOKEN = 32000 := by norm_num [MAX_TOKENS, CHARS_PER_TOKEN]
  refine ⟨rfl, fun h => ?_, fun h => ?_, fun h => ?_, by decide⟩
  · rw [truncate, if_pos (show (contentText (JsContent.other v)).length ≤
      MAX_TOKENS * CHARS_PER_TOKEN by rw [hm]; exact h)]
    rfl
  · rw [truncate, if_pos (show (contentText (JsContent.str s)).length ≤
      MAX_TOKENS * CHARS_PER_TOKEN by rw [hm]; exact h)]
    rfl
  · rw [truncate, if_neg (show ¬ ((contentText (JsContent.str s)).length ≤
      MAX_TOKENS * CHARS_PER_TOKEN) from by
        show ¬ (s.length ≤ MAX_TOKENS * CHARS_PER_TOKEN)
        rw [hm]; omega)]
    rw [hm]
    rfl

/-- Witness for the C10 theorem at concrete inputs. -/
theorem truncate_serializes_then_limits_witness :
    truncate (.other (.num 5)) = jsonStringify2 (.num 5) ∧
    truncate (.str "abc") = "abc" :=
  ⟨(truncate_serializes_then_limits (.num 5) "abc").2.1 (by decide),
   (truncate_serializes_then_limits (.num 5) "abc").2.2.1 (by decide)⟩

/-- C5: evaluation of the `fetch` result loop at a two-spec call where
the first record succeeded and the second failed — the whole call is
rejected with a thrown error instead of returning one record per spec
(the per-record `success: false` shape the server's own tool
documentation declares). -/
theorem fetch_throws_on_partial_failure :
    fetchModel [zodSource] [zodOkRecord, nopeFailRecord] =
      .error "Failed to fetch nope: Unknown error" := rfl

/-- C6 counterexample: re-fetching the already-present `zod` source
returns a record whose `alreadyExists` field is `false` — the loop
hardcodes `alreadyExists: false` — where the claim predicts `true`. -/
theorem fetch_alreadyExists_false_cex :
    fetchModel [zodSource] [zodOkRecord] = .ok [zodFetchedRecord] ∧
    zodFetchedRecord.alreadyExists = false := ⟨rfl, rfl⟩

/-- C6 (amended): re-fetching a spec whose source is already present
still returns one successful record for it, but every record any `fetch`
call returns reports `alreadyExists = false` — the implementation
hardcodes the flag, so the second call never reports `true`. -/
theorem fetch_never_reports_alreadyExists (newSources : List Source)
    (results : List OpensrcFetchResult) (l : List FetchedSource)
    (h : fetchModel newSources results = .ok l) :
    ∀ fs ∈ l, fs.alreadyExists = false := by
  induction results generalizing l with
  | nil =>
      rw [fetchModel] at h
      cases h
      intro fs hfs
      cases hfs
  | cons r rest ih =>
      rw [fetchModel] at h
      by_cases hs : r.success = false
      · rw [if_pos hs] at h
        cases h
      · rw [if_neg hs] at h
        cases hfind : findFetchedSource newSources r.package with
        | none => rw [hfind] at h; cases h
        | some src =>
            rw [hfind] at h
            cases hrec : fetchModel newSources rest with
            | error e => rw [hrec] at h; cases h
            | ok l2 =>
                rw [hrec] at h
                cases h
                intro fs hfs
                rcases List.mem_cons.mp hfs with hfs | hfs
                · rw [hfs]
                · exact ih l2 hrec fs hfs

/-- Witness for the amended C6 theorem: the record of a repeat fetch of
the present `zod` source. -/
theorem fetch_never_reports_alreadyExists_witness :
    zodFetchedRecord.alreadyExists = false :=
  fetch_never_reports_alreadyExists [zodSource] [zodOkRecord]
    [zodFetchedRecord] rfl zodFetchedRecord (by simp)

/-- C3 counterexample: the store is empty, the only requested source "A"
is neither indexing nor indexed, yet `search` returns
`\x7berror: "indexing", sources: ["B"]\x7d` (the full indexing set)
because the empty-store check runs before the per-request checks — the
claim predicts `\x7berror: "not_indexed", sources: ["A"]\x7d`. -/
theorem search_empty_store_checks_cex :
    searchModel emptyStoreStateB (some ["A"]) 20 = .err "indexing" ["B"] ∧
    emptyStoreStateB.indexing.contains "A" = false ∧
    emptyStoreStateB.indexedSources.contains "A" = false := by
  refine ⟨rfl, rfl, rfl⟩

/-- C3 (amended): once the subsystem is ready and the chunks table is
non-empty, a call with a non-empty `opts.sources` list behaves as
claimed: requested sources currently indexing produce
`\x7berror: "indexing"\x7d` with exactly those sources, otherwise
requested sources not yet indexed produce `\x7berror: "not_indexed"\x7d`
with those, and only when all requested sources are indexed does the
call proceed to embed the query and scan. -/
theorem search_source_checks (st : SearchState) (ss : List String) (topK : Nat)
    (hready : st.ready = true) (hdata : st.hasData = true) (hne : ss ≠ []) :
    (ss.filter (fun s => decide (s ∈ st.indexing)) ≠ [] →
      searchModel st (some ss) topK =
        .err "indexing" (ss.filter (fun s => decide (s ∈ st.indexing)))) ∧
    (ss.filter (fun s => decide (s ∈ st.indexing)) = [] →
      ss.filter (fun s => decide (s ∉ st.indexedSources)) ≠ [] →
      searchModel st (some ss) topK =
        .err "not_indexed" (ss.filter (fun s => decide (s ∉ st.indexedSources)))) ∧
    (ss.filter (fun s => decide (s ∈ st.indexing)) = [] →
      ss.filter (fun s => decide (s ∉ st.indexedSources)) = [] →
      searchModel st (some ss) topK = .proceed (some ss) topK) := by
  have hlen : ss.length > 0 := List.length_pos.mpr hne
  refine ⟨fun hind => ?_, fun hind hni => ?_, fun hind hni => ?_⟩
  · rw [searchModel, hready, hdata]
    simp only [Bool.not_true, Bool.false_eq_true, if_false, if_pos hlen,
      if_pos (List.length_pos.mpr hind)]
  · rw [searchModel, hready, hdata]
    simp only [Bool.not_true, Bool.false_eq_true, if_false, if_pos hlen]
    rw [if_neg (by rw [hind]; simp), if_pos (List.length_pos.mpr hni)]
  · rw [searchModel, hready, hdata]
    simp only [Bool.not_true, Bool.false_eq_true, if_false, if_pos hlen]
    rw [if_neg (by rw [hind]; simp), if_neg (by rw [hni]; simp)]

/-- Witness for the amended C3 theorem: requesting \x7b"A", "C"\x7d while
"C" is indexing yields the indexing error naming exactly "C". -/
theorem search_source_checks_witness :
    searchModel checksState (some ["A", "C"]) 20 = .err "indexing" ["C"] := by
  have h := (search_source_checks checksState ["A", "C"] 20 rfl rfl
    (by simp)).1 (by decide)
  simpa using h

/-- The batch loop leaves `indexed_sources` untouched, appends exactly
the rows of the successful batches before the first failure, reports a
failure iff some batch fails, and on success counts all chunks. -/
theorem runBatches_spec (source : String)
    (batches : List (List CodeChunk × BatchOutcome)) :
    ∀ (db : DBState) (total : Nat),
      (runBatches source db total batches).1.rows =
        db.rows ++ (successfulPrefixChunks batches).map (fun c => (source, c)) ∧
      (runBatches source db total batches).1.indexedSources = db.indexedSources ∧
      (runBatches source db total batches).2.2 = hasBatchFailure batches ∧
      (runBatches source db total batches).2.1 =
        (if hasBatchFailure batches then (runBatches source db total batches).2.1
         else total + (successfulPrefixChunks batches).length) := by
  induction batches with
  | nil =>
      intro db total
      simp [runBatches, successfulPrefixChunks, hasBatchFailure]
  | cons b rest ih =>
      intro db total
      obtain ⟨batch, outcome⟩ := b
      cases outcome with
      | ok =>
          have h := ih (insertChunksModel db source batch) (total + batch.length)
          refine ⟨?_, ?_, ?_, ?_⟩
          · rw [show runBatches source db total ((batch, BatchOutcome.ok) :: rest) =
                runBatches source (insertChunksModel db source batch)
                  (total + batch.length) rest from rfl]
            rw [h.1]
            simp [insertChunksModel, successfulPrefixChunks]
          · exact h.2.1
          · exact h.2.2.1
          · have h4 := h.2.2.2
            by_cases hf : hasBatchFailure rest
            · simp [hasBatchFailure, hf]
            · simp only [hasBatchFailure, hf, if_false] at h4 ⊢
              rw [show runBatches source db total ((batch, BatchOutcome.ok) :: rest) =
                  runBatches source (insertChunksModel db source batch)
                    (total + batch.length) rest from rfl]
              rw [h4]
              simp [successfulPrefixChunks]
              omega
      | embedFail =>
          simp [runBatches, processBatchModel, successfulPrefixChunks, hasBatchFailure]
      | insertFail =>
          simp [runBatches, processBatchModel, successfulPrefixChunks, hasBatchFailure]

/-- C2 counterexample: source "s", first batch inserted, second batch's
embedding fails, store initially empty.  The run ends with the partial
row for the first batch still present (nothing is deleted), the source
unmarked, and the indexing set empty — the claim's "deletes any partial
chunk rows" is false. -/
theorem indexing_failure_keeps_rows_cex :
    (indexSourceInternalModel ⟨[], []⟩ [] "s"
        [([chunkA], .ok), ([chunkB], .embedFail)] true).1.rows = [("s", chunkA)] ∧
    (indexSourceInternalModel ⟨[], []⟩ [] "s"
        [([chunkA], .ok), ([chunkB], .embedFail)] true).1.indexedSources = [] ∧
    (indexSourceInternalModel ⟨[], []⟩ [] "s"
        [([chunkA], .ok), ([chunkB], .embedFail)] true).2 = [] := ⟨rfl, rfl, rfl⟩

/-- C2 (amended): for every indexing run of a not-yet-indexed,
not-currently-indexing source that fails (a batch's embedding or insert
fails, or `finalize` fails after at least one chunk), the engine keeps
the partial chunk rows already inserted for that source (no deletion
occurs — `deleteSource` is never called), removes the source from the
indexing set, and does not mark it as indexed, so a later `queueIndex`
re-queues it. -/
theorem indexing_failure_policy (db : DBState) (indexing : List String)
    (source : String) (batches : List (List CodeChunk × BatchOutcome))
    (finalizeOk : Bool)
    (hni : isIndexedModel db source = false) (hnp : source ∉ indexing)
    (hfail : hasBatchFailure batches = true ∨
      (finalizeOk = false ∧ hasBatchFailure batches = false ∧
        0 < (successfulPrefixChunks batches).length)) :
    (indexSourceInternalModel db indexing source batches finalizeOk).1.rows =
      db.rows ++ (successfulPrefixChunks batches).map (fun c => (source, c)) ∧
    isIndexedModel
      (indexSourceInternalModel db indexing source batches finalizeOk).1 source = false ∧
    source ∉ (indexSourceInternalModel db indexing source batches finalizeOk).2 ∧
    queueIndexModel (indexSourceInternalModel db indexing source batches finalizeOk).1
      (indexSourceInternalModel db indexing source batches finalizeOk).2 [] source
      = [source] := by
  have hspec := runBatches_spec source batches db 0
  have hrun : indexSourceInternalModel db indexing source batches finalizeOk =
      (let r := runBatches source db 0 batches
       let db2 :=
         if r.2.2 then r.1
         else if r.2.1 > 0 then
           if finalizeOk then markIndexedModel r.1 source else r.1
         else markIndexedModel r.1 source
       (db2, (indexing ++ [source]).filter (fun s => s ≠ source))) := by
    rw [indexSourceInternalModel, if_neg (by rw [hni]; simp), if_neg hnp]
  have hdb2 : (indexSourceInternalModel db indexing source batches finalizeOk).1 =
      (runBatches source db 0 batches).1 := by
    rw [hrun]
    rcases hfail with hf | ⟨hfin, hf, hpos⟩
    · simp only [hspec.2.2.1, hf, if_true]
    · have htot : (runBatches source db 0 batches).2.1 =
          (successfulPrefixChunks batches).length := by
        have := hspec.2.2.2
        rw [hf] at this
        simpa using this
      simp only [hspec.2.2.1, hf, Bool.false_eq_true, if_false, htot, hfin]
      rw [if_pos hpos]
  have hind : (indexSourceInternalModel db indexing source batches finalizeOk).2 =
      (indexing ++ [source]).filter (fun s => s ≠ source) := by
    rw [hrun]
  have hnotmem : source ∉ (indexing ++ [source]).filter (fun s => s ≠ source) := by
    intro hmem
    have := List.of_mem_filter hmem
    simp at this
  refine ⟨?_, ?_, ?_, ?_⟩
  · rw [hdb2, hspec.1]
  · rw [hdb2, isIndexedModel, hspec.2.1]
    exact hni
  · rw [hind]
    exact hnotmem
  · rw [queueIndexModel, if_neg ?_]
    · rfl
    · rw [hdb2, hind]
      simp only [Bool.or_eq_true, decide_eq_true_eq]
      push_neg
      refine ⟨⟨?_, hnotmem⟩, by simp⟩
      intro htrue
      have hcontra : isIndexedModel db source = true := by
        rw [isIndexedModel, ← hspec.2.1]
        exact htrue
      simp [hni] at hcontra

/-- Witness for the amended C2 theorem at the concrete failing run. -/
theorem indexing_failure_policy_witness :
    (indexSourceInternalModel ⟨[], []⟩ [] "s"
        [([chunkA], .ok), ([chunkB], .embedFail)] true).1.rows =
      [] ++ (successfulPrefixChunks
        [([chunkA], .ok), ([chunkB], .embedFail)]).map (fun c => ("s", c)) :=
  (indexing_failure_policy ⟨[], []⟩ [] "s"
    [([chunkA], .ok), ([chunkB], .embedFail)] true rfl (by simp)
    (Or.inl rfl)).1

/-- A file selected for parsing has its extension mapped by `EXT_LANG`. -/
theorem astGrepFileLang_some (langs : Option (List AstLang)) (f : String)
    (l : AstLang) (h : astGrepFileLang langs f = some l) :
    EXT_LANG (extname f) = some l := by
  unfold astGrepFileLang at h
  split at h
  · simp at h
  · split at h
    · split at h
      · simp at h
      · simp_all
    · simp_all

/-- Every match the `astGrep` loop accumulates comes from a file whose
extension `EXT_LANG` maps. -/
theorem astGrepGo_mapped (rootSegs : List Seg) (langs : Option (List AstLang))
    (limit : Nat) (parse : String → AstLang → Option (List Nat)) :
    ∀ (files : List String) (acc : List (String × Nat)),
      (∀ m ∈ acc, ∃ l, EXT_LANG (extname m.1) = some l) →
      ∀ m ∈ astGrepGo rootSegs langs limit parse files acc,
        ∃ l, EXT_LANG (extname m.1) = some l := by
  intro files
  induction files with
  | nil =>
      intro acc hacc m hm
      rw [astGrepGo] at hm
      exact hacc m hm
  | cons f rest ih =>
      intro acc hacc m hm
      rw [astGrepGo] at hm
      split at hm
      · exact hacc m hm
      · split at hm
        · exact ih acc hacc m hm
        · rename_i l hfl
          split at hm
          · split at hm
            · exact ih acc hacc m hm
            · rename_i ms hp
              refine ih _ ?_ m hm
              intro m2 hm2
              rcases List.mem_append.mp hm2 with hm2 | hm2
              · exact hacc m2 hm2
              · have hm3 := List.mem_of_mem_take hm2
                rcases List.mem_map.mp hm3 with ⟨x, _, hx⟩
                rw [← hx]
                exact ⟨l, astGrepFileLang_some langs f l hfl⟩
          · exact ih acc hacc m hm

/-- C9: every `astGrep` match comes from a file whose extension maps to
a parser language in `EXT_LANG` (.js/.mjs/.cjs/.jsx as JavaScript, .ts,
.tsx, .html, .css); a `.rs` file is skipped silently — whatever the lang
options, limit or parser — and never appears in the results. -/
theorem astGrep_skips_unmapped_extensions (rootSegs : List Seg)
    (files : List String) (langs : Option (List AstLang)) (limit : Nat)
    (parse : String → AstLang → Option (List Nat)) :
    (∀ m ∈ astGrepModel rootSegs files langs limit parse,
       ∃ l, EXT_LANG (extname m.1) = some l) ∧
    EXT_LANG ".rs" = none ∧
    (∀ (limit2 : Nat) (parse2 : String → AstLang → Option (List Nat))
       (langs2 : Option (List AstLang)),
       astGrepModel rootSegs ["lib.rs"] langs2 limit2 parse2 = []) ∧
    EXT_LANG ".js" = some .javascript ∧ EXT_LANG ".mjs" = some .javascript ∧
    EXT_LANG ".cjs" = some .javascript ∧ EXT_LANG ".jsx" = some .javascript ∧
    EXT_LANG ".ts" = some .typescript ∧ EXT_LANG ".tsx" = some .tsx ∧
    EXT_LANG ".html" = some .html ∧ EXT_LANG ".css" = some .css := by
  refine ⟨?_, rfl, ?_, rfl, rfl, rfl, rfl, rfl, rfl, rfl, rfl⟩
  · intro m hm
    exact astGrepGo_mapped rootSegs langs limit parse files [] (by simp) m hm
  · intro limit2 parse2 langs2
    have hext : astGrepFileLang langs2 "lib.rs" = none := by
      rw [astGrepFileLang]
      rw [show EXT_LANG (extname "lib.rs") = none from rfl]
    rw [astGrepModel, astGrepGo]
    by_cases h0 : ([] : List (String × Nat)).length ≥ limit2
    · rw [if_pos h0]
    · rw [if_neg h0, hext]
      rfl

/-- Witness for the C9 theorem: the match produced on `a.ts` has a mapped
extension. -/
theorem astGrep_skips_unmapped_extensions_witness :
    ∃ l, EXT_LANG (extname "a.ts") = some l :=
  (astGrep_skips_unmapped_extensions [['d']] ["a.ts"] none 5
      (fun _ _ => some [0])).1 ("a.ts", 0)
    (by rw [show astGrepModel [['d']] ["a.ts"] none 5 (fun _ _ => some [0]) =
          [("a.ts", 0)] from rfl]; simp)

/-- The `ORDER BY distance` comparison is transitive. -/
theorem candLE_trans (a b c : Cand) (h1 : candLE a b) (h2 : candLE b c) :
    candLE a c := by
  simp only [candLE, decide_eq_true_eq] at h1 h2 ⊢
  exact le_trans h1 h2

/-- The `ORDER BY distance` comparison is total. -/
theorem candLE_total (a b : Cand) : candLE a b || candLE b a := by
  simp only [candLE, Bool.or_eq_true, decide_eq_true_eq]
  exact le_total a.distance b.distance

/-- C4: with a non-empty source filter `searchChunks` consults the
quantized scan only at budget `2·topK`, keeps only candidates of the
requested sources, returns at most `topK` rows; without a filter it
consults the scan only at budget `topK` and returns its rows; in both
cases rows are ordered by ascending distance (descending score) and each
row's score equals `1 - distance`. -/
theorem searchChunks_spec (scan : Nat → List Cand) (sources : List String)
    (topK : Nat) :
    (sources ≠ [] → (searchChunksModel scan sources topK).length ≤ topK) ∧
    (sources ≠ [] → ∀ r ∈ searchChunksModel scan sources topK,
        ∃ c ∈ scan (topK * 2), c.row.source ∈ sources ∧ r = toSearchResult c ∧
          r.score = 1 - c.distance) ∧
    (sources = [] → ∀ r ∈ searchChunksModel scan sources topK,
        ∃ c ∈ scan topK, r = toSearchResult c ∧ r.score = 1 - c.distance) ∧
    (searchChunksModel scan sources topK).Pairwise
      (fun a b => b.score ≤ a.score) ∧
    (∀ scan2 : Nat → List Cand, scan2 (topK * 2) = scan (topK * 2) →
        scan2 topK = scan topK →
        searchChunksModel scan2 sources topK = searchChunksModel scan sources topK) := by
  refine ⟨fun h => ?_, fun h r hr => ?_, fun h r hr => ?_, ?_, fun scan2 h2 h1 => ?_⟩
  · rw [searchChunksModel, if_pos (List.length_pos.mpr h)]
    simp only [List.length_map, List.length_take]
    exact min_le_left _ _
  · rw [searchChunksModel, if_pos (List.length_pos.mpr h)] at hr
    rcases List.mem_map.mp hr with ⟨c, hc, hrc⟩
    have hc2 := List.mem_mergeSort.mp (List.mem_of_mem_take hc)
    rcases List.mem_filter.mp hc2 with ⟨hscan, hsrc⟩
    exact ⟨c, hscan, of_decide_eq_true hsrc, hrc.symm, by rw [← hrc]; rfl⟩
  · subst h
    rw [searchChunksModel, if_neg (by simp)] at hr
    rcases List.mem_map.mp hr with ⟨c, hc, hrc⟩
    exact ⟨c, List.mem_mergeSort.mp hc, hrc.symm, by rw [← hrc]; rfl⟩
  · have hmap : ∀ (l : List Cand), l.Pairwise (fun a b => candLE a b) →
        (l.map toSearchResult).Pairwise (fun a b => b.score ≤ a.score) := by
      intro l hl
      refine List.Pairwise.map toSearchResult ?_ hl
      intro a b hab
      simp only [candLE, decide_eq_true_eq] at hab
      exact sub_le_sub_left hab 1
    rw [searchChunksModel]
    by_cases hlen : sources.length > 0
    · rw [if_pos hlen]
      refine hmap _ (List.Pairwise.sublist (List.take_sublist _ _) ?_)
      exact List.sorted_mergeSort (fun a b c => candLE_trans a b c)
        candLE_total _
    · rw [if_neg hlen]
      refine hmap _ ?_
      exact List.sorted_mergeSort (fun a b c => candLE_trans a b c)
        candLE_total _
  · rw [searchChunksModel, searchChunksModel]
    by_cases hlen : sources.length > 0
    · rw [if_pos hlen, if_pos hlen, h2]
    · rw [if_neg hlen, if_neg hlen, h1]

/-- Witness for the C4 theorem: a one-candidate scan with filter
`["s"]` and `topK = 1` returns at most one row and that row scores
`1 - distance`. -/
theorem searchChunks_spec_witness :
    (searchChunksModel (fun _ => [candS]) ["s"] 1).length ≤ 1 ∧
    (∀ r ∈ searchChunksModel (fun _ => [candS]) ["s"] 1,
      ∃ c ∈ [candS], c.row.source ∈ ["s"] ∧ r = toSearchResult c ∧
        r.score = 1 - c.distance) :=
  ⟨(searchChunks_spec (fun _ => [candS]) ["s"] 1).1 (by simp),
   (searchChunks_spec (fun _ => [candS]) ["s"] 1).2.1 (by simp)⟩

/-- Every chunk the sliding-window loop emits from line index `i` on has
a 1-based range inside the file starting after `i` and carries the
trimmed join of exactly that line range. -/
theorem fallbackGo_spec (file : String) (lines : List String) :
    ∀ (n i : Nat), lines.length - i ≤ n →
      ∀ c ∈ fallbackGo file lines i,
        1 ≤ c.startLine ∧ c.startLine ≤ c.endLine ∧ c.endLine ≤ lines.length ∧
        c.content = jsTrim (joinNL ((lines.drop (c.startLine - 1)).take
          (c.endLine - c.startLine + 1))) := by
  intro n
  induction n with
  | zero =>
      intro i hle c hc
      rw [fallbackGo, dif_neg (by omega)] at hc
      cases hc
  | succ n ih =>
      intro i hle c hc
      have hW : WINDOW_SIZE = 50 := rfl
      have hO : OVERLAP = 15 := rfl
      rw [fallbackGo] at hc
      by_cases hi : i < lines.length
      · rw [dif_pos hi] at hc
        have hstep : lines.length - (i + (WINDOW_SIZE - OVERLAP)) ≤ n := by omega
        split at hc
        · exact ih (i + (WINDOW_SIZE - OVERLAP)) hstep c hc
        · have hemin : i + 1 ≤ min (i + WINDOW_SIZE) lines.length := by
            refine le_min (by omega) (by omega)
          have hm2 : min (i + WINDOW_SIZE) lines.length ≤ lines.length :=
            min_le_right _ _
          have harith : min (i + WINDOW_SIZE) lines.length - (i + 1) + 1 =
              min (i + WINDOW_SIZE) lines.length - i := by
            revert hemin
            generalize min (i + WINDOW_SIZE) lines.length = m
            intro hemin
            omega
          rcases List.mem_cons.mp hc with hc | hc
          · rw [hc]
            refine ⟨show 1 ≤ i + 1 by omega, hemin, hm2, ?_⟩
            show jsTrim (joinNL ((lines.drop i).take
                (min (i + WINDOW_SIZE) lines.length - i))) =
              jsTrim (joinNL ((lines.drop (i + 1 - 1)).take
                (min (i + WINDOW_SIZE) lines.length - (i + 1) + 1)))
            rw [show i + 1 - 1 = i from rfl, harith]
          · split at hc
            · cases hc
            · exact ih (i + (WINDOW_SIZE - OVERLAP)) hstep c hc
      · rw [dif_neg hi] at hc
        cases hc

/-- Chunks flushed by `closeSection` satisfy the range/content invariant
when the accumulated lines are exactly the slice of the open section. -/
theorem closeSection_spec (lines : List String) (s : MdSection)
    (secLines : List String) (i : Nat)
    (hs1 : 1 ≤ s.startLine) (hs2 : s.startLine ≤ i) (hi : i ≤ lines.length)
    (hsec : secLines = (lines.drop (s.startLine - 1)).take (i - (s.startLine - 1))) :
    ∀ c ∈ closeSection s secLines i,
      1 ≤ c.startLine ∧ c.startLine ≤ c.endLine ∧ c.endLine ≤ lines.length ∧
      c.content = jsTrim (joinNL ((lines.drop (c.startLine - 1)).take
        (c.endLine - c.startLine + 1))) := by
  intro c hc
  rw [closeSection] at hc
  split at hc
  · rcases List.mem_singleton.mp hc with hc
    subst hc
    refine ⟨hs1, hs2, hi, ?_⟩
    have harith : i - (s.startLine - 1) = i - s.startLine + 1 := by omega
    rw [hsec, harith]
  · cases hc

/-- Chunks flushed as the preamble satisfy the range/content invariant
when the accumulated lines are the first `i` lines. -/
theorem preambleSection_spec (lines : List String) (secLines : List String)
    (i : Nat) (hi : i ≤ lines.length) (hsec : secLines = lines.take i) :
    ∀ c ∈ preambleSection secLines i,
      1 ≤ c.startLine ∧ c.startLine ≤ c.endLine ∧ c.endLine ≤ lines.length ∧
      c.content = jsTrim (joinNL ((lines.drop (c.startLine - 1)).take
        (c.endLine - c.startLine + 1))) := by
  intro c hc
  rw [preambleSection] at hc
  split at hc
  · rename_i hpos
    split at hc
    · rcases List.mem_singleton.mp hc with hc
      subst hc
      have hi1 : 1 ≤ i := by
        rw [hsec, List.length_take] at hpos
        omega
      refine ⟨le_refl 1, hi1, hi, ?_⟩
      have harith : i - 1 + 1 = i := by omega
      simp only [Nat.sub_self, List.drop_zero, harith, hsec]
    · cases hc
  · cases hc

/-- The invariant of the `extractSections` loop: at index `i` with the
remaining lines, the open section's accumulated lines are exactly its
slice so far (or the first `i` lines when no heading was seen), so every
section it ever emits has an in-file range carrying the trimmed slice. -/
theorem sectionsGo_spec (lines : List String) :
    ∀ (rest : List String) (i : Nat) (cur : Option MdSection)
      (secLines : List String),
      rest = lines.drop i → i ≤ lines.length →
      (∀ s, cur = some s → 1 ≤ s.startLine ∧ s.startLine ≤ i ∧
        secLines = (lines.drop (s.startLine - 1)).take (i - (s.startLine - 1))) →
      (cur = none → secLines = lines.take i) →
      ∀ c ∈ sectionsGo rest i cur secLines,
        1 ≤ c.startLine ∧ c.startLine ≤ c.endLine ∧ c.endLine ≤ lines.length ∧
        c.content = jsTrim (joinNL ((lines.drop (c.startLine - 1)).take
          (c.endLine - c.startLine + 1))) := by
  intro rest
  induction rest with
  | nil =>
      intro i cur secLines hrest hi hcur hnone c hc
      have hieq : i = lines.length := by
        have hlen := congrArg List.length hrest
        simp only [List.length_nil, List.length_drop] at hlen
        omega
      cases cur with
      | some s =>
          obtain ⟨h1, h2, h3⟩ := hcur s rfl
          exact closeSection_spec lines s secLines i h1 h2 hi h3 c hc
      | none =>
          exact preambleSection_spec lines secLines i hi (hnone rfl) c hc
  | cons line rest2 ih =>
      intro i cur secLines hrest hi hcur hnone c hc
      have hdrop : lines.drop i = line :: rest2 := hrest.symm
      have hlt : i < lines.length := by
        by_contra hge
        rw [List.drop_eq_nil_of_le (by omega)] at hdrop
        cases hdrop
      have hgetl : lines[i]? = some line := by
        have h0 : (lines.drop i)[0]? = some line := by rw [hdrop]; simp
        rwa [List.getElem?_drop, Nat.add_zero] at h0
      have hrest2 : rest2 = lines.drop (i + 1) := by
        have hdd := congrArg (List.drop 1) hdrop
        rw [List.drop_drop] at hdd
        simpa using hdd.symm
      rw [sectionsGo] at hc
      split at hc
      · rename_i lvl htext hph
        rcases List.mem_append.mp hc with hc | hc
        · cases cur with
          | some s =>
              obtain ⟨h1, h2, h3⟩ := hcur s rfl
              exact closeSection_spec lines s secLines i h1 h2 (by omega) h3 c hc
          | none =>
              exact preambleSection_spec lines secLines i (by omega) (hnone rfl) c hc
        · refine ih (i + 1) (some (openSection i lvl htext)) [line]
            hrest2 (by omega) ?_ ?_ c hc
          · intro s hs
            cases hs
            refine ⟨by simp [openSection], by simp [openSection], ?_⟩
            simp only [openSection, Nat.add_sub_cancel]
            rw [hdrop, show i + 1 - i = 1 from by omega]
            simp
          · intro h
            cases h
      · refine ih (i + 1) cur (secLines ++ [line]) hrest2 (by omega) ?_ ?_ c hc
        · intro s hs
          obtain ⟨h1, h2, h3⟩ := hcur s hs
          refine ⟨h1, by omega, ?_⟩
          rw [h3]
          have harith : (i + 1) - (s.startLine - 1) = (i - (s.startLine - 1)) + 1 := by
            omega
          rw [harith, List.take_succ]
          have hidx : (lines.drop (s.startLine - 1))[i - (s.startLine - 1)]? =
              some line := by
            rw [List.getElem?_drop]
            rw [show s.startLine - 1 + (i - (s.startLine - 1)) = i from by omega]
            exact hgetl
          rw [hidx]
          rfl
        · intro h
          rw [hnone h, List.take_succ, hgetl]
          rfl

/-- Every chunk the fenced-code-block loop emits has an in-file range
(the opening fence line is strictly before the closing one) and kind
`codeblock`. -/
theorem codeBlocksGo_spec (file : String) (lines : List String) :
    ∀ (rest : List String) (i : Nat) (inBlock : Bool) (blockLang : String)
      (blockStart : Nat) (blockLines : List String),
      rest = lines.drop i → i ≤ lines.length →
      (inBlock = true → blockStart < i) →
      ∀ c ∈ codeBlocksGo file rest i inBlock blockLang blockStart blockLines,
        1 ≤ c.startLine ∧ c.startLine ≤ c.endLine ∧ c.endLine ≤ lines.length ∧
        c.kind = "codeblock" := by
  intro rest
  induction rest with
  | nil =>
      intro i inBlock blockLang blockStart blockLines hrest hi hinv c hc
      rw [codeBlocksGo] at hc
      cases hc
  | cons line rest2 ih =>
      intro i inBlock blockLang blockStart blockLines hrest hi hinv c hc
      have hdrop : lines.drop i = line :: rest2 := hrest.symm
      have hlt : i < lines.length := by
        by_contra hge
        rw [List.drop_eq_nil_of_le (by omega)] at hdrop
        cases hdrop
      have hrest2 : rest2 = lines.drop (i + 1) := by
        have hdd := congrArg (List.drop 1) hdrop
        rw [List.drop_drop] at hdd
        simpa using hdd.symm
      rw [codeBlocksGo] at hc
      split at hc
      · exact ih (i + 1) true _ i [] hrest2 (by omega) (fun _ => by omega) c hc
      · split at hc
        · rename_i hcond
          rcases List.mem_append.mp hc with hc | hc
          · split at hc
            · rcases List.mem_singleton.mp hc with hc
              rw [hc]
              have hbs : blockStart < i := hinv hcond.2
              exact ⟨show 1 ≤ blockStart + 1 by omega,
                show blockStart + 1 ≤ i + 1 by omega,
                show i + 1 ≤ lines.length by omega, rfl⟩
            · cases hc
          · exact ih (i + 1) false blockLang blockStart [] hrest2 (by omega)
              (by intro h; cases h) c hc
        · split at hc
          · rename_i hin
            exact ih (i + 1) inBlock blockLang blockStart (blockLines ++ [line])
              hrest2 (by omega) (fun h => by have := hinv h; omega) c hc
          · exact ih (i + 1) inBlock blockLang blockStart blockLines
              hrest2 (by omega) (fun h => by have := hinv h; omega) c hc

/-- C7 counterexample: on the one-line file `"  x"` the sliding-window
chunker emits content `"x"` — the `trim()` has removed the leading
spaces — while the file's slice over the emitted range `[1,1]` is
`"  x"`; content is not the file slice modulo trailing-newline
conventions. -/
theorem chunk_content_trimmed_cex :
    (fallbackChunk "f" "  x").map (fun c => c.content) = ["x"] ∧
    (fallbackChunk "f" "  x").map (fun c => (c.startLine, c.endLine)) = [(1, 1)] ∧
    fileSlice "  x" 1 1 = "  x" ∧
    (("x" : String) == "  x") = false := by
  have h1 : fallbackChunk "f" "  x" =
      [{ file := "f", identifier := "lines_1_1", kind := "unknown",
         startLine := 1, endLine := 1, content := "x" }] := by
    rw [fallbackChunk, show splitNL "  x" = ["  x"] from rfl, fallbackGo,
      dif_pos (by decide), if_neg (by decide), if_pos (by decide)]
    decide
  rw [h1]
  refine ⟨rfl, rfl, rfl, rfl⟩

/-- C7 (amended): for the Markdown and sliding-window chunkers (the AST
strategies call external tree-sitter parsers), every emitted chunk has
`1 ≤ startLine ≤ endLine ≤ number of lines`, and the sliding-window and
Markdown-section chunks carry exactly the JS-`trim()` of the file's
slice over `[startLine, endLine]` (Markdown `codeblock` chunks re-fence
their trimmed body instead). -/
theorem chunker_slice_invariants (file content : String) :
    (∀ c ∈ fallbackChunk file content,
      1 ≤ c.startLine ∧ c.startLine ≤ c.endLine ∧
      c.endLine ≤ (splitNL content).length ∧
      c.content = jsTrim (fileSlice content c.startLine c.endLine)) ∧
    (∀ c ∈ chunkMarkdown file content,
      1 ≤ c.startLine ∧ c.startLine ≤ c.endLine ∧
      c.endLine ≤ (splitNL content).length ∧
      (c.kind = "section" →
        c.content = jsTrim (fileSlice content c.startLine c.endLine))) := by
  constructor
  · intro c hc
    exact fallbackGo_spec file (splitNL content) (splitNL content).length 0
      (by omega) c hc
  · intro c hc
    rw [chunkMarkdown] at hc
    rcases List.mem_append.mp hc with hc | hc
    · rcases List.mem_map.mp hc with ⟨s, hs, hcs⟩
      have hspec := sectionsGo_spec (splitNL content) (splitNL content) 0 none []
        (by rw [List.drop_zero]) (by omega)
        (by intro s2 h2; cases h2) (by intro _; rfl) s hs
      rw [← hcs]
      exact ⟨hspec.1, hspec.2.1, hspec.2.2.1, fun _ => hspec.2.2.2⟩
    · have hspec := codeBlocksGo_spec file (splitNL content) (splitNL content) 0
        false "" 0 [] (by rw [List.drop_zero]) (by omega)
        (by intro h; cases h) c hc
      refine ⟨hspec.1, hspec.2.1, hspec.2.2.1, fun hk => ?_⟩
      rw [hspec.2.2.2] at hk
      exact absurd hk (by decide)

/-- Witness for the amended C7 theorem: the single chunk of the
`"  x"` file satisfies the invariant (its content is the trimmed slice). -/
theorem chunker_slice_invariants_witness :
    1 ≤ (1 : Nat) ∧ (1 : Nat) ≤ 1 ∧ (1 : Nat) ≤ (splitNL "  x").length ∧
    ("x" : String) = jsTrim (fileSlice "  x" 1 1) := by
  have h1 : fallbackChunk "f" "  x" =
      [{ file := "f", identifier := "lines_1_1", kind := "unknown",
         startLine := 1, endLine := 1, content := "x" }] := by
    rw [fallbackChunk, show splitNL "  x" = ["  x"] from rfl, fallbackGo,
      dif_pos (by decide), if_neg (by decide), if_pos (by decide)]
    decide
  have h := (chunker_slice_invariants "f" "  x").1
    { file := "f", identifier := "lines_1_1", kind := "unknown",
      startLine := 1, endLine := 1, content := "x" }
    (by rw [h1]; simp)
  exact h

/-- Pieces produced by splitting on the separator contain no separator. -/
theorem splitAux_no_sep (cs : List Char) :
    ∀ (cur : List Char), sepChar ∉ cur → ∀ s ∈ splitAux cs cur, sepChar ∉ s := by
  induction cs with
  | nil =>
      intro cur hcur s hs
      rw [splitAux] at hs
      rcases List.mem_singleton.mp hs with hs
      rw [hs]
      simpa using hcur
  | cons c rest ih =>
      intro cur hcur s hs
      rw [splitAux] at hs
      by_cases hc : c = sepChar
      · rw [if_pos hc] at hs
        rcases List.mem_cons.mp hs with hs | hs
        · rw [hs]; simpa using hcur
        · exact ih [] (by simp) s hs
      · rw [if_neg hc] at hs
        refine ih (c :: cur) ?_ s hs
        intro hm
        rcases List.mem_cons.mp hm with hm | hm
        · exact hc hm.symm
        · exact hcur hm

/-- No segment of `splitSegs` contains the separator. -/
theorem splitSegs_no_sep (cs : List Char) : ∀ s ∈ splitSegs cs, sepChar ∉ s :=
  splitAux_no_sep cs [] (by simp)

/-- One normalization step preserves cleanliness of the stack. -/
theorem normStep_clean (stack : List Seg) (seg : Seg)
    (hst : ∀ s ∈ stack, s ≠ [] ∧ sepChar ∉ s) (hseg : sepChar ∉ seg) :
    ∀ s ∈ normStep stack seg, s ≠ [] ∧ sepChar ∉ s := by
  intro s hs
  rw [normStep] at hs
  split at hs
  · exact hst s hs
  · split at hs
    · exact hst s (List.dropLast_subset _ hs)
    · rename_i hne _
      rcases List.mem_append.mp hs with hs | hs
      · exact hst s hs
      · rcases List.mem_singleton.mp hs with hs
        rw [hs]
        exact ⟨fun he => hne (Or.inl he), hseg⟩

/-- Folding normalization steps over separator-free segments keeps the
stack clean. -/
theorem foldl_normStep_clean (segs : List Seg) :
    ∀ (init : List Seg), (∀ s ∈ init, s ≠ [] ∧ sepChar ∉ s) →
      (∀ s ∈ segs, sepChar ∉ s) →
      ∀ s ∈ segs.foldl normStep init, s ≠ [] ∧ sepChar ∉ s := by
  induction segs with
  | nil => intro init hinit _ s hs; exact hinit s hs
  | cons seg rest ih =>
      intro init hinit hsegs s hs
      rw [List.foldl_cons] at hs
      exact ih (normStep init seg)
        (normStep_clean init seg hinit (hsegs seg (by simp)))
        (fun t ht => hsegs t (by simp [ht])) s hs

/-- The resolved path of a clean root is clean. -/
theorem resolveSegs_clean (rootSegs : List Seg) (p : List Char)
    (hroot : CleanSegs rootSegs) : CleanSegs (resolveSegs rootSegs p) := by
  rw [resolveSegs]
  split
  · exact foldl_normStep_clean (splitSegs p) [] (by simp) (splitSegs_no_sep p)
  · exact foldl_normStep_clean (splitSegs p) rootSegs hroot (splitSegs_no_sep p)

/-- Peeling one separator-free segment off both sides of a prefix whose
left side continues with a separator. -/
theorem prefix_peel (x : List Char) :
    ∀ (y u2 v : List Char), sepChar ∉ x → sepChar ∉ y →
      (v = [] ∨ ∃ t, v = sepChar :: t) →
      x ++ sepChar :: u2 <+: y ++ v → x = y ∧ sepChar :: u2 <+: v := by
  induction x with
  | nil =>
      intro y u2 v _ hy hv h
      cases y with
      | nil => exact ⟨rfl, by simpa using h⟩
      | cons d y2 =>
          simp only [List.nil_append, List.cons_append] at h
          rcases List.cons_prefix_cons.mp h with ⟨heq, _⟩
          exact absurd (by rw [heq]; exact List.mem_cons_self _ _) hy
  | cons c x2 ih =>
      intro y u2 v hx hy hv h
      cases y with
      | nil =>
          simp only [List.nil_append, List.cons_append] at h
          rcases hv with rfl | ⟨t, rfl⟩
          · have := List.prefix_nil.mp h
            cases this
          · rcases List.cons_prefix_cons.mp h with ⟨heq, _⟩
            exact absurd (by rw [← heq]; exact List.mem_cons_self _ _) hx
      | cons d y2 =>
        rw [List.cons_append, List.cons_append] at h
        rcases List.cons_prefix_cons.mp h with ⟨heq, htail⟩
        have hx2 : sepChar ∉ x2 := fun hm => hx (List.mem_cons_of_mem _ hm)
        have hy2 : sepChar ∉ y2 := fun hm => hy (List.mem_cons_of_mem _ hm)
        obtain ⟨hxy, hpre⟩ := ih y2 u2 v hx2 hy2 hv htail
        exact ⟨by rw [heq, hxy], hpre⟩

/-- Two separator-free segments followed by separator-headed tails can
only be equal segment-wise. -/
theorem seg_append_inj (x : List Char) :
    ∀ (y u v : List Char), sepChar ∉ x → sepChar ∉ y →
      (u = [] ∨ ∃ t, u = sepChar :: t) → (v = [] ∨ ∃ t, v = sepChar :: t) →
      x ++ u = y ++ v → x = y ∧ u = v := by
  induction x with
  | nil =>
      intro y u v _ hy hu _ h
      cases y with
      | nil => exact ⟨rfl, by simpa using h⟩
      | cons d y2 =>
          simp only [List.nil_append, List.cons_append] at h
          rcases hu with rfl | ⟨t, rfl⟩
          · cases h
          · rcases List.cons.injEq .. ▸ h with ⟨heq, _⟩
            exact absurd (by rw [heq]; exact List.mem_cons_self _ _) hy
  | cons c x2 ih =>
      intro y u v hx hy hu hv h
      cases y with
      | nil =>
          simp only [List.nil_append, List.cons_append] at h
          rcases hv with rfl | ⟨t, rfl⟩
          · cases h
          · rcases List.cons.injEq .. ▸ h with ⟨heq, _⟩
            exact absurd (by rw [← heq]; exact List.mem_cons_self _ _) hx
      | cons d y2 =>
        rw [List.cons_append, List.cons_append] at h
        rcases List.cons.injEq .. ▸ h with ⟨heq, htail⟩
        have hx2 : sepChar ∉ x2 := fun hm => hx (List.mem_cons_of_mem _ hm)
        have hy2 : sepChar ∉ y2 := fun hm => hy (List.mem_cons_of_mem _ hm)
        obtain ⟨hxy, huv⟩ := ih y2 u v hx2 hy2 hu hv htail
        exact ⟨by rw [heq, hxy], huv⟩

/-- The tail join is empty or separator-headed. -/
theorem joinTail_shape (l : List Seg) :
    joinTail l = [] ∨ ∃ t, joinTail l = sepChar :: t := by
  cases l with
  | nil => exact Or.inl rfl
  | cons s rest => exact Or.inr ⟨s ++ joinTail rest, rfl⟩

/-- `joinSegs` is injective on clean segment lists. -/
theorem joinSegs_inj (a : List Seg) :
    ∀ (b : List Seg), CleanSegs a → CleanSegs b →
      joinSegs a = joinSegs b → a = b := by
  induction a with
  | nil =>
      intro b _ hb h
      cases b with
      | nil => rfl
      | cons y b2 =>
          rw [joinSegs, joinSegs] at h
          have hy := (hb y (by simp)).1
          rcases List.append_eq_nil.mp h.symm with ⟨hy2, _⟩
          exact absurd hy2 hy
  | cons x a2 ih =>
      intro b ha hb h
      cases b with
      | nil =>
          rw [joinSegs, joinSegs] at h
          have hx := (ha x (by simp)).1
          rcases List.append_eq_nil.mp h with ⟨hx2, _⟩
          exact absurd hx2 hx
      | cons y b2 =>
        rw [joinSegs, joinSegs] at h
        obtain ⟨hxy, htail⟩ := seg_append_inj x y (joinTail a2) (joinTail b2)
          (ha x (by simp)).2 (hb y (by simp)).2
          (joinTail_shape a2) (joinTail_shape b2) h
        have ha2 : CleanSegs a2 := fun s hs => ha s (by simp [hs])
        have hb2 : CleanSegs b2 := fun s hs => hb s (by simp [hs])
        have htl : a2 = b2 := by
          cases a2 with
          | nil =>
              cases b2 with
              | nil => rfl
              | cons z b3 => rw [joinTail, joinTail] at htail; cases htail
          | cons w a3 =>
              cases b2 with
              | nil => rw [joinTail, joinTail] at htail; cases htail
              | cons z b3 =>
                  rw [joinTail, joinTail] at htail
                  have hjs : joinSegs (w :: a3) = joinSegs (z :: b3) := by
                    rw [joinSegs, joinSegs]
                    exact (List.cons.injEq .. ▸ htail).2
                  exact ih (z :: b3) ha2 hb2 hjs
        rw [hxy, htl]

/-- The string-level check `join a ++ "/" prefix-of join b` implies
segment-level prefix, for clean segment lists — the `/foo` vs `/foobar`
separation the trailing separator buys. -/
theorem joinSegs_sep_extends (a : List Seg) :
    ∀ (b : List Seg), CleanSegs a → CleanSegs b →
      joinSegs a ++ [sepChar] <+: joinSegs b → a <+: b := by
  induction a with
  | nil => intro b _ _ _; exact List.nil_prefix
  | cons x a2 ih =>
      intro b ha hb h
      cases b with
      | nil =>
          rw [show joinSegs [] = [] from rfl] at h
          have := List.prefix_nil.mp h
          simp at this
      | cons y b2 =>
        rw [joinSegs, joinSegs, List.append_assoc] at h
        have hx := (ha x (by simp)).2
        have hy := (hb y (by simp)).2
        have ha2 : CleanSegs a2 := fun s hs => ha s (by simp [hs])
        have hb2 : CleanSegs b2 := fun s hs => hb s (by simp [hs])
        cases a2 with
        | nil =>
            obtain ⟨hxy, _⟩ := prefix_peel x y [] (joinTail b2) hx hy
              (joinTail_shape b2) (by simpa using h)
            rw [hxy]
            exact List.cons_prefix_cons.mpr ⟨rfl, List.nil_prefix⟩
        | cons w a3 =>
            have h2 : x ++ sepChar :: (joinSegs (w :: a3) ++ [sepChar]) <+:
                y ++ joinTail b2 := by
              rw [joinSegs]
              simpa [joinTail, List.cons_append, List.append_assoc] using h
            obtain ⟨hxy, hrest⟩ := prefix_peel x y
              (joinSegs (w :: a3) ++ [sepChar]) (joinTail b2) hx hy
              (joinTail_shape b2) h2
            cases b2 with
            | nil =>
                rw [joinTail] at hrest
                have := List.prefix_nil.mp hrest
                cases this
            | cons z b3 =>
                rw [joinTail] at hrest
                rcases List.cons_prefix_cons.mp hrest with ⟨_, hrest2⟩
                have hsub := ih (z :: b3) ha2 hb2
                  (by rw [show joinSegs (z :: b3) = z ++ joinTail b3 from rfl]
                      exact hrest2)
                rw [hxy]
                exact List.cons_prefix_cons.mpr ⟨rfl, hsub⟩

/-- If the `read` guard accepts, the resolved path's segments extend the
root's segments. -/
theorem readGuard_sound (rootSegs resSegs : List Seg)
    (hroot : CleanSegs rootSegs) (hres : CleanSegs resSegs)
    (h : readGuard (renderSegs rootSegs) (renderSegs resSegs) = true) :
    rootSegs <+: resSegs := by
  rw [readGuard, Bool.or_eq_true] at h
  rcases h with h | h
  · have hpre : renderSegs rootSegs ++ [sepChar] <+: renderSegs resSegs :=
      List.isPrefixOf_iff_prefix.mp h
    rw [renderSegs, renderSegs, List.cons_append] at hpre
    rcases List.cons_prefix_cons.mp hpre with ⟨_, hpre2⟩
    exact joinSegs_sep_extends rootSegs resSegs hroot hres hpre2
  · have heq : renderSegs resSegs = renderSegs rootSegs := by
      simpa using h
    rw [renderSegs, renderSegs] at heq
    have hj : joinSegs resSegs = joinSegs rootSegs :=
      (List.cons.injEq .. ▸ heq).2
    rw [joinSegs_inj resSegs rootSegs hres hroot hj]

/-- C1: `read` resolves the user path against the source root and
succeeds only if the resolved path lies under that root (its segments
extend the root's segments — the trailing-separator comparison keeps
`/foo` from matching `/foobar`); whenever the resolved path does not lie
under the root, the call fails with the path-traversal error and no file
is read. -/
theorem read_path_traversal_safety (rootSegs : List Seg) (p : List Char)
    (hroot : CleanSegs rootSegs) :
    (∀ full, readModel rootSegs p = .ok full →
        rootSegs <+: resolveSegs rootSegs p ∧
        full = renderSegs (resolveSegs rootSegs p)) ∧
    (¬ rootSegs <+: resolveSegs rootSegs p →
        readModel rootSegs p = .error ("Path traversal not allowed: ".data ++ p)) := by
  have hres : CleanSegs (resolveSegs rootSegs p) := resolveSegs_clean rootSegs p hroot
  constructor
  · intro full hok
    rw [readModel] at hok
    by_cases hg : readGuard (renderSegs rootSegs)
        (renderSegs (resolveSegs rootSegs p)) = true
    · rw [if_pos hg] at hok
      cases hok
      exact ⟨readGuard_sound rootSegs (resolveSegs rootSegs p) hroot hres hg, rfl⟩
    · rw [if_neg hg] at hok
      cases hok
  · intro hnp
    rw [readModel]
    rw [if_neg ?_]
    intro hg
    exact hnp (readGuard_sound rootSegs (resolveSegs rootSegs p) hroot hres hg)

/-- Witness for the C1 theorem: with source root `/foo`, the user path
`../foobar` resolves to `/foobar`, which is not under `/foo` (despite
sharing the character prefix), and `read` rejects it with the
path-traversal error. -/
theorem read_path_traversal_safety_witness :
    readModel fooRoot ("../foobar".data) =
      .error ("Path traversal not allowed: ".data ++ "../foobar".data) :=
  (read_path_traversal_safety fooRoot ("../foobar".data)
      (by intro s hs; rcases List.mem_singleton.mp hs with rfl; exact ⟨by simp, by decide⟩)).2
    (by decide)

end OpensrcMCP
